import Mathlib

/-!
Verification of the command-line parsing core of rusty-sharutils
(`src/core/src/lib.rs`).

The embedding models Rust `OsString` tokens as Lean `String` (the parser
compares tokens through `to_string_lossy`, which is the identity on valid
UTF-8, and every property below is about UTF-8 tokens), Rust `HashMap`s as
association lists (keys are inserted only after an explicit
duplicate check, so every map in play has pairwise-distinct keys and the
representation choice is observation-equivalent), and the fallible parser
as a function into `Except ParseError`.  Character-level token tests
(`starts_with`, slicing at `=`) are carried out on `String.data`, which
agrees with Rust's byte slicing here because every sliced position sits
after ASCII characters.
-/

set_option autoImplicit false
set_option maxHeartbeats 1000000

namespace RustySharutils

/-- Validation error for option values (Rust struct `ValidationError`). -/
structure ValidationError where
  message : String
deriving DecidableEq

/-- Command line parsing errors (Rust enum `ParseError`). -/
inductive ParseError where
  | ValidationError (e : ValidationError)
  | UnknownOption (s : String)
  | MissingValue (s : String)
  | InvalidFlagCombination (s : String)
  | DuplicateOption (s : String)
deriving DecidableEq

/-- One command-line option definition (Rust struct `OptionDefinition`).
The validator field mirrors `Option<OptionValidator>` where
`OptionValidator = fn(&OsStr) -> Result<(), ValidationError>`. -/
structure OptionDefinition where
  flag : Char
  name : String
  has_value : Bool
  default_value : Option String
  validator : Option (String → Except ValidationError Unit)
  help_text : String

/-- The fully parsed command line (Rust struct `ParsedCommand`); the
`options` HashMap is represented as an association list with distinct keys. -/
structure ParsedCommand where
  executable_path : String
  options : List (String × Option String)
  arguments : List String
deriving DecidableEq

/-- `HashMap::contains_key` on the options map. -/
def containsKey (m : List (String × Option String)) (k : String) : Bool :=
  m.any (fun p => p.1 == k)

/-- `HashMap::get` on the options map. -/
def lookupKey (m : List (String × Option String)) (k : String) :
    Option (Option String) :=
  (m.find? (fun p => p.1 == k)).map (fun p => p.2)

/-- `HashMap::insert` on the options map; the parser only inserts keys it
has just checked to be absent, so appending preserves the map contract. -/
def optInsert (m : List (String × Option String)) (k : String)
    (v : Option String) : List (String × Option String) :=
  m ++ [(k, v)]

/-- `ParsedCommand::is_option_set`. -/
def ParsedCommand.is_option_set (pc : ParsedCommand) (name : String) : Bool :=
  containsKey pc.options name

/-- `ParsedCommand::option_value`. -/
def ParsedCommand.option_value (pc : ParsedCommand) (name : String) :
    Option String :=
  (lookupKey pc.options name).bind id

/-- `ParsedCommand::option_value_or_default`. -/
def ParsedCommand.option_value_or_default (pc : ParsedCommand) (name : String)
    (d : String) : String :=
  (pc.option_value name).getD d

/-- `ParsedCommand::has_option_value`. -/
def ParsedCommand.has_option_value (pc : ParsedCommand) (name : String) : Bool :=
  match lookupKey pc.options name with
  | some (some _) => true
  | _ => false

/-- Lookup in the by-flag index (`by_flag.get`). -/
def lookupFlag (m : List (Char × OptionDefinition)) (c : Char) :
    Option OptionDefinition :=
  (m.find? (fun p => p.1 == c)).map (fun p => p.2)

/-- Lookup in the by-name index (`by_name.get`). -/
def lookupName (m : List (String × OptionDefinition)) (n : String) :
    Option OptionDefinition :=
  (m.find? (fun p => p.1 == n)).map (fun p => p.2)

/-- Key-membership in the by-flag index. -/
def flagKey (m : List (Char × OptionDefinition)) (c : Char) : Bool :=
  m.any (fun p => p.1 == c)

/-- Key-membership in the by-name index. -/
def nameKey (m : List (String × OptionDefinition)) (n : String) : Bool :=
  m.any (fun p => p.1 == n)

/-- The lookup-table construction loop of `parse_command_line`
(lines 127-138 of `lib.rs`): for each definition, in order, inserting into
`by_flag` and then into `by_name` fails with `DuplicateOption` when the key
is already present. -/
def buildLookups : List OptionDefinition →
    List (Char × OptionDefinition) → List (String × OptionDefinition) →
    Except ParseError
      (List (Char × OptionDefinition) × List (String × OptionDefinition))
  | [], byFlag, byName => .ok (byFlag, byName)
  | d :: defs, byFlag, byName =>
    if flagKey byFlag d.flag then
      .error (.DuplicateOption ("flag \x27" ++ d.flag.toString ++ "\x27"))
    else if nameKey byName d.name then
      .error (.DuplicateOption d.name)
    else
      buildLookups defs (byFlag ++ [(d.flag, d)]) (byName ++ [(d.name, d)])

/-- Rust `arg_str.starts_with('-')`. -/
def startsDash (s : String) : Bool :=
  match s.data with
  | c :: _ => c == '-'
  | [] => false

/-- Rust `arg_str.starts_with("--")`. -/
def startsTwoDashes (s : String) : Bool :=
  match s.data with
  | c1 :: c2 :: _ => c1 == '-' && c2 == '-'
  | _ => false

/-- Split a character list at the first `=` (Rust `arg_str.find('=')`
followed by slicing): returns the characters before the first `=` and,
when an `=` exists, the characters after it. -/
def splitAtEq : List Char → List Char × Option (List Char)
  | [] => ([], none)
  | c :: cs =>
    if c == '=' then ([], some cs)
    else
      let r := splitAtEq cs
      (c :: r.1, r.2)

/-- The long-option name: `&arg_str[2..eq_pos]` (or `&arg_str[2..]` when no
`=` occurs).  The first `=` of the token can only occur at byte position
`>= 2` because the token starts with `--`, so char-level splitting after
dropping the two dashes agrees with Rust's byte slicing. -/
def longNameOf (s : String) : String :=
  String.mk (splitAtEq (s.data.drop 2)).1

/-- The inline long-option value: `Some(&arg_str[eq_pos + 1..])` when an
`=` occurs, `None` otherwise. -/
def longValueOf (s : String) : Option String :=
  ((splitAtEq (s.data.drop 2)).2).map String.mk

/-- The validation step (`if let (Some(validator), Some(val)) = ...`):
runs the validator only when both a validator and a value are present. -/
def runValidator (d : OptionDefinition) (v : Option String) :
    Except ParseError Unit :=
  match d.validator, v with
  | some f, some val =>
    match f val with
    | .ok _ => .ok ()
    | .error e => .error (.ValidationError e)
  | _, _ => .ok ()

/-- The value resolution shared by long options without `=` (lines 170-177)
and final value-taking short flags (lines 215-222): consult the lookahead
token, then the configured default, then fail.  Returns the resolved value
and whether the lookahead token was consumed (`i += 1`). -/
def resolveValue (d : OptionDefinition) (nextTok : Option String) :
    Except ParseError (Option String × Bool) :=
  match nextTok with
  | some t =>
    if startsDash t then
      match d.default_value with
      | some dv => .ok (some dv, false)
      | none => .error (.MissingValue d.name)
    else .ok (some t, true)
  | none =>
    match d.default_value with
    | some dv => .ok (some dv, false)
    | none => .error (.MissingValue d.name)

/-- The `final_value` computation of the long-option branch
(lines 167-185): inline `=` value, else the value resolution rule for
value-taking options; bare options reject an inline value. -/
def longFinalValue (d : OptionDefinition) (value : Option String)
    (nextTok : Option String) : Except ParseError (Option String × Bool) :=
  if d.has_value then
    match value with
    | some v => .ok (some v, false)
    | none => resolveValue d nextTok
  else
    match value with
    | some _ =>
      .error (.ValidationError
        ⟨"Option \x27" ++ d.name ++ "\x27 does not accept a value"⟩)
    | none => .ok (none, false)

/-- The long-option branch of the scan loop (lines 152-192): split at `=`,
look up by name, reject re-specification, resolve the value, validate,
record.  Returns the updated options map and whether the lookahead token
was consumed. -/
def handleLong (byName : List (String × OptionDefinition))
    (opts : List (String × Option String)) (arg : String)
    (nextTok : Option String) :
    Except ParseError (List (String × Option String) × Bool) :=
  let option_name := longNameOf arg
  let value := longValueOf arg
  match lookupName byName option_name with
  | none => .error (.UnknownOption ("--" ++ option_name))
  | some d =>
    if containsKey opts d.name then .error (.DuplicateOption d.name)
    else
      match longFinalValue d value nextTok with
      | .error e => .error e
      | .ok (final_value, consumed) =>
        match runValidator d final_value with
        | .error e => .error e
        | .ok _ => .ok (optInsert opts d.name final_value, consumed)

/-- The short-flag-group loop (lines 196-233): each character resolved in
order; a value-taking flag must be last (`InvalidFlagCombination`
otherwise); the final flag may consume the lookahead token through the
value resolution rule.  `flags` is the group without its leading dash,
used in the `InvalidFlagCombination` message. -/
def processFlagChars (byFlag : List (Char × OptionDefinition))
    (flags : String) (nextTok : Option String) :
    List (String × Option String) → List Char →
    Except ParseError (List (String × Option String) × Bool)
  | opts, [] => .ok (opts, false)
  | opts, c :: cs =>
    match lookupFlag byFlag c with
    | none => .error (.UnknownOption ("-" ++ c.toString))
    | some d =>
      if containsKey opts d.name then .error (.DuplicateOption d.name)
      else if d.has_value then
        if cs.isEmpty then
          match resolveValue d nextTok with
          | .error e => .error e
          | .ok (final_value, consumed) =>
            match runValidator d final_value with
            | .error e => .error e
            | .ok _ => .ok (optInsert opts d.name final_value, consumed)
        else
          .error (.InvalidFlagCombination
            ("Flag \x27" ++ c.toString
              ++ "\x27 requires a value but is not the last in combination \x27"
              ++ flags ++ "\x27"))
      else
        processFlagChars byFlag flags nextTok (optInsert opts d.name none) cs

/-- The token scan loop of `parse_command_line` (lines 144-241), one
cursor, single token of lookahead; branch order as in the source:
`--` terminator, long option, short flag group, positional stop. -/
def parseLoop (byFlag : List (Char × OptionDefinition))
    (byName : List (String × OptionDefinition)) :
    List (String × Option String) → List String → List String →
    Except ParseError (List (String × Option String) × List String)
  | opts, arguments, [] => .ok (opts, arguments)
  | opts, arguments, arg :: rest =>
    if arg == "--" then
      .ok (opts, arguments ++ rest)
    else if startsTwoDashes arg then
      match handleLong byName opts arg rest.head? with
      | .error e => .error e
      | .ok (opts2, consumed) =>
        if consumed then
          match rest with
          | [] => .ok (opts2, arguments)
          | _ :: rest2 => parseLoop byFlag byName opts2 arguments rest2
        else parseLoop byFlag byName opts2 arguments rest
    else if startsDash arg ∧ 1 < arg.data.length then
      match processFlagChars byFlag (String.mk (arg.data.drop 1)) rest.head?
          opts (arg.data.drop 1) with
      | .error e => .error e
      | .ok (opts2, consumed) =>
        if consumed then
          match rest with
          | [] => .ok (opts2, arguments)
          | _ :: rest2 => parseLoop byFlag byName opts2 arguments rest2
        else parseLoop byFlag byName opts2 arguments rest
    else
      .ok (opts, arguments ++ arg :: rest)

/-- Rust `parse_command_line` (lines 115-252): empty-input check, lookup
table construction, token scan, result assembly. -/
def parse_command_line (option_definitions : List OptionDefinition)
    (args : List String) : Except ParseError ParsedCommand :=
  match args with
  | [] => .error (.UnknownOption "No executable path provided")
  | executable_path :: rest =>
    match buildLookups option_definitions [] [] with
    | .error e => .error e
    | .ok (byFlag, byName) =>
      match parseLoop byFlag byName [] [] rest with
      | .error e => .error e
      | .ok (options, arguments) =>
        .ok { executable_path := executable_path
              options := options
              arguments := arguments }

/-- Pad a string on the right with spaces to the given width
(Rust format specifier for left alignment at a minimum width). -/
def padWidth (w : Nat) (s : String) : String :=
  s ++ String.mk (List.replicate (w - s.data.length) ' ')

/-- One rendered option line of `generate_help` (line 266-271 of
`lib.rs`): two spaces, the `-f, --name` trigger column padded to width 20,
a space, the help text, a newline. -/
def optionLine (d : OptionDefinition) : String :=
  "  " ++ padWidth 20 ("-" ++ d.flag.toString ++ ", --" ++ d.name)
    ++ " " ++ d.help_text ++ "\n"

/-- The option-listing loop of `generate_help`. -/
def optionLines : List OptionDefinition → String
  | [] => ""
  | d :: ds => optionLine d ++ optionLines ds

/-- Rust `generate_help` (lines 255-274). -/
def generate_help (command_name : String) (description : String)
    (usage_pattern : String) (option_definitions : List OptionDefinition) :
    String :=
  "Usage: " ++ command_name ++ " " ++ usage_pattern ++ "\n\n"
    ++ description ++ "\n\n" ++ "Options:\n"
    ++ optionLines option_definitions

/-! Sample option definitions, mirroring the catalogs of the crate's
tests (`standard_options` plus the `file`, `output` and `mode` options). -/

/-- The `help` definition of `standard_options`. -/
def helpDef : OptionDefinition :=
  ⟨'h', "help", false, none, none, "Display this help message and exit"⟩

/-- The `version` definition of `standard_options`. -/
def versionDef : OptionDefinition :=
  ⟨'V', "version", false, none, none, "Display version information and exit"⟩

/-- The `file` definition used by the crate's value tests. -/
def fileDef : OptionDefinition :=
  ⟨'f', "file", true, none, none, "File path"⟩

/-- The `output` definition with a configured default. -/
def outputDef : OptionDefinition :=
  ⟨'o', "output", true, some "default.txt", none, "Output file"⟩

/-- A bare `mode` flag. -/
def modeDef : OptionDefinition :=
  ⟨'m', "mode", false, none, none, "Test mode"⟩

/-- A second definition re-using the short flag `f`: together with
`fileDef` it forms a catalog violating the flag-uniqueness invariant. -/
def forceDef : OptionDefinition :=
  ⟨'f', "force", false, none, none, "Force overwrite"⟩

/-- A catalog holding a duplicate short flag. -/
def dupFlagCatalog : List OptionDefinition := [fileDef, forceDef]

/-- The catalog used for the value-syntax equivalence example. -/
def stdFileCatalog : List OptionDefinition := [helpDef, versionDef, fileDef]

/-- A catalog contains two definitions sharing a flag character or sharing
a name string. -/
def hasDuplicateDef (defs : List OptionDefinition) : Prop :=
  ¬ (defs.map OptionDefinition.flag).Nodup ∨
    ¬ (defs.map OptionDefinition.name).Nodup

/-- Discriminator: the parse outcome is a `DuplicateOption` error. -/
def isDupErr : Except ParseError ParsedCommand → Bool
  | .error (.DuplicateOption _) => true
  | _ => false

/-- The characters of a short-flag group token, without the leading dash
(Rust `&arg_str[1..]`). -/
def groupChars (s : String) : List Char := s.data.drop 1

/-- A command-line token mentions the option named `n`: either it is a
long-option token written for that name, or it is a dash-led group whose
characters include a flag bound to that name in the by-flag index. -/
def tokenMentions (byFlag : List (Char × OptionDefinition)) (arg : String)
    (n : String) : Prop :=
  (startsTwoDashes arg = true ∧ arg ≠ "--" ∧ longNameOf arg = n) ∨
  (startsDash arg = true ∧
    ∃ c ∈ groupChars arg, ∃ d, lookupFlag byFlag c = some d ∧ d.name = n)

/-- Render a list of lines as a text block, each line followed by a
newline. -/
def joinLines : List String → String
  | [] => ""
  | l :: ls => l ++ "\n" ++ joinLines ls

instance {ε α : Type} [DecidableEq ε] [DecidableEq α] :
    DecidableEq (Except ε α) := fun x y =>
  match x, y with
  | .ok a, .ok b =>
    if h : a = b then .isTrue (by rw [h])
    else .isFalse (by intro hc; cases hc; exact h rfl)
  | .error a, .error b =>
    if h : a = b then .isTrue (by rw [h])
    else .isFalse (by intro hc; cases hc; exact h rfl)
  | .ok _, .error _ => .isFalse (by intro hc; cases hc)
  | .error _, .ok _ => .isFalse (by intro hc; cases hc)

/-! General lemmas about the embedding. -/

theorem startsTwoDashes_startsDash {s : String}
    (h : startsTwoDashes s = true) : startsDash s = true := by
  unfold startsTwoDashes at h
  unfold startsDash
  rcases hd : s.data with _ | ⟨c1, _ | ⟨c2, cs⟩⟩ <;> rw [hd] at h <;> simp_all

theorem contains_lookup (m : List (String × Option String)) (k : String) :
    containsKey m k = (lookupKey m k).isSome := by
  induction m with
  | nil => rfl
  | cons p t ih =>
    unfold containsKey lookupKey at ih ⊢
    rw [List.any_cons, List.find?_cons]
    cases hp : (p.1 == k) with
    | false => simpa using ih
    | true => simp

theorem containsKey_optInsert (m : List (String × Option String))
    (k n : String) (v : Option String) :
    containsKey (optInsert m k v) n = (containsKey m n || k == n) := by
  unfold containsKey optInsert
  simp

theorem str_data_append (a b : String) : (a ++ b).data = a.data ++ b.data := rfl

theorem str_ext {a b : String} (h : a.data = b.data) : a = b :=
  congrArg String.mk h

theorem data_newline : ("\n" : String).data = ['\n'] := rfl

theorem data_two_newlines : ("\n\n" : String).data = ['\n', '\n'] := rfl

theorem data_empty : ("" : String).data = [] := rfl

theorem data_options_header :
    ("Options:\n" : String).data = ("Options:" : String).data ++ ['\n'] := rfl

/-- The rendered option block equals the line-per-definition rendering. -/
theorem joinLines_entries (ds : List OptionDefinition) :
    joinLines (ds.map (fun d => "  " ++ padWidth 20
      ("-" ++ d.flag.toString ++ ", --" ++ d.name) ++ " " ++ d.help_text)) =
    optionLines ds := by
  induction ds with
  | nil => rfl
  | cons d t ih =>
    simp only [List.map_cons, joinLines, optionLines, optionLine, ih]

theorem not_mem_of_flagKey_false {m : List (Char × OptionDefinition)}
    {c : Char} (h : flagKey m c = false) : c ∉ m.map Prod.fst := by
  intro hc
  unfold flagKey at h
  rw [List.any_eq_false] at h
  obtain ⟨p, hp, hpc⟩ := List.mem_map.mp hc
  exact (h p hp) (by simp [hpc])

theorem not_mem_of_nameKey_false {m : List (String × OptionDefinition)}
    {n : String} (h : nameKey m n = false) : n ∉ m.map Prod.fst := by
  intro hn
  unfold nameKey at h
  rw [List.any_eq_false] at h
  obtain ⟨p, hp, hpc⟩ := List.mem_map.mp hn
  exact (h p hp) (by simp [hpc])

/-- Catalog compilation fails with a `DuplicateOption` error exactly when
the accumulated keys together with the remaining definitions hold a
repeated flag or name. -/
theorem buildLookups_dup :
    ∀ (defs : List OptionDefinition) (bf : List (Char × OptionDefinition))
      (bn : List (String × OptionDefinition)),
      (bf.map Prod.fst).Nodup → (bn.map Prod.fst).Nodup →
      (¬ (bf.map Prod.fst ++ defs.map OptionDefinition.flag).Nodup ∨
        ¬ (bn.map Prod.fst ++ defs.map OptionDefinition.name).Nodup) →
      ∃ s, buildLookups defs bf bn = .error (.DuplicateOption s) := by
  intro defs
  induction defs with
  | nil =>
    intro bf bn hbf hbn h
    simp only [List.map_nil, List.append_nil] at h
    rcases h with h | h
    · exact absurd hbf h
    · exact absurd hbn h
  | cons d ds ih =>
    intro bf bn hbf hbn h
    unfold buildLookups
    cases hf : flagKey bf d.flag with
    | true =>
      refine ⟨"flag \x27" ++ d.flag.toString ++ "\x27", ?_⟩
      simp [hf]
    | false =>
      cases hn : nameKey bn d.name with
      | true =>
        refine ⟨d.name, ?_⟩
        simp [hf, hn]
      | false =>
        rw [if_neg (by simp [hf]), if_neg (by simp [hn])]
        apply ih
        · rw [List.map_append]
          simp only [List.map_cons, List.map_nil]
          rw [List.nodup_append]
          refine ⟨hbf, List.nodup_singleton _, ?_⟩
          intro x hx hx2
          simp only [List.mem_singleton] at hx2
          subst hx2
          exact not_mem_of_flagKey_false hf hx
        · rw [List.map_append]
          simp only [List.map_cons, List.map_nil]
          rw [List.nodup_append]
          refine ⟨hbn, List.nodup_singleton _, ?_⟩
          intro x hx hx2
          simp only [List.mem_singleton] at hx2
          subst hx2
          exact not_mem_of_nameKey_false hn hx
        · rcases h with h | h
          · exact Or.inl (by simpa [List.append_assoc] using h)
          · exact Or.inr (by simpa [List.append_assoc] using h)

/-- Processing a short-flag group: when every character before `c`
resolves to a known, not-yet-recorded bare flag and `c` resolves to a
value-taking definition while further characters follow, the group is
rejected with `InvalidFlagCombination` naming `c` and the group. -/
theorem processFlagChars_nonfinal_value_flag
    (byFlag : List (Char × OptionDefinition)) (flags : String)
    (nextTok : Option String) (c : Char) (post : List Char)
    (d : OptionDefinition)
    (hpost : post ≠ []) (hc : lookupFlag byFlag c = some d)
    (hv : d.has_value = true) :
    ∀ (pre : List Char) (opts : List (String × Option String)),
      (∀ a ∈ pre, ∃ da, lookupFlag byFlag a = some da ∧ da.has_value = false) →
      (pre ++ [c]).Pairwise (fun a b => ∀ da db,
        lookupFlag byFlag a = some da → lookupFlag byFlag b = some db →
        da.name ≠ db.name) →
      (∀ a ∈ pre ++ [c], ∀ da, lookupFlag byFlag a = some da →
        containsKey opts da.name = false) →
      processFlagChars byFlag flags nextTok opts (pre ++ c :: post) =
        .error (.InvalidFlagCombination
          ("Flag \x27" ++ c.toString
            ++ "\x27 requires a value but is not the last in combination \x27"
            ++ flags ++ "\x27")) := by
  intro pre
  induction pre with
  | nil =>
    intro opts hpre hpair hfresh
    have hfc : containsKey opts d.name = false := hfresh c (by simp) d hc
    rw [List.nil_append]
    unfold processFlagChars
    rw [hc]
    simp only [hfc, hv, Bool.false_eq_true, if_false, if_true]
    cases post with
    | nil => exact absurd rfl hpost
    | cons p ps => simp [List.isEmpty]
  | cons a pre' ih =>
    intro opts hpre hpair hfresh
    obtain ⟨da, hda, hdav⟩ := hpre a (by simp)
    have hfa : containsKey opts da.name = false := hfresh a (by simp) da hda
    rw [List.cons_append]
    unfold processFlagChars
    rw [hda]
    simp only [hfa, hdav, Bool.false_eq_true, if_false]
    have hpair2 : ((a :: (pre' ++ [c])).Pairwise (fun a b => ∀ da db,
        lookupFlag byFlag a = some da → lookupFlag byFlag b = some db →
        da.name ≠ db.name)) := by simpa using hpair
    apply ih
    · intro b hb
      exact hpre b (by simp [hb])
    · exact (List.pairwise_cons.mp hpair2).2
    · intro b hb db hdb
      rw [containsKey_optInsert]
      have h1 : containsKey opts db.name = false := by
        refine hfresh b ?_ db hdb
        simp only [List.cons_append, List.mem_cons]
        exact Or.inr hb
      have h2 : da.name ≠ db.name :=
        (List.pairwise_cons.mp hpair2).1 b hb da db hda hdb
      simp [h1, beq_eq_false_iff_ne.mpr h2]

theorem handleLong_keys
    (byName : List (String × OptionDefinition))
    (opts : List (String × Option String)) (arg : String)
    (nextTok : Option String) (opts2 : List (String × Option String))
    (consumed : Bool)
    (hwf : ∀ p ∈ byName, (p.2 : OptionDefinition).name = p.1)
    (h : handleLong byName opts arg nextTok = .ok (opts2, consumed)) :
    ∀ n, containsKey opts2 n = true →
      containsKey opts n = true ∨ longNameOf arg = n := by
  unfold handleLong at h
  cases hl : lookupName byName (longNameOf arg) with
  | none => simp only [hl] at h; cases h
  | some d =>
    have hdn : d.name = longNameOf arg := by
      unfold lookupName at hl
      cases hf : byName.find? (fun p => p.1 == longNameOf arg) with
      | none => rw [hf] at hl; cases hl
      | some p =>
        rw [hf] at hl
        have hp1 : p.1 = longNameOf arg := by
          have hpred := List.find?_some hf
          exact eq_of_beq hpred
        have hpm : p ∈ byName := List.mem_of_find?_eq_some hf
        injection hl with hl2
        rw [← hl2, hwf p hpm, hp1]
    by_cases hck : containsKey opts d.name = true
    · simp only [hl, if_pos hck] at h; cases h
    · cases hlf : longFinalValue d (longValueOf arg) nextTok with
      | error e => simp only [hl, if_neg hck, hlf] at h; cases h
      | ok fv =>
        obtain ⟨final_value, cons2⟩ := fv
        cases hrv : runValidator d final_value with
        | error e => simp only [hl, if_neg hck, hlf, hrv] at h; cases h
        | ok u =>
          simp only [hl, if_neg hck, hlf, hrv] at h
          injection h with h'
          have h1 : optInsert opts d.name final_value = opts2 :=
            congrArg Prod.fst h'
          intro n hn
          rw [← h1, containsKey_optInsert] at hn
          rcases (by simpa using hn :
            containsKey opts n = true ∨ d.name = n) with hx | hx
          · exact Or.inl hx
          · exact Or.inr (hdn.symm.trans hx)




theorem processFlagChars_keys
    (byFlag : List (Char × OptionDefinition)) (flags : String)
    (nextTok : Option String) :
    ∀ (chars : List Char) (opts opts2 : List (String × Option String))
      (consumed : Bool),
      processFlagChars byFlag flags nextTok opts chars = .ok (opts2, consumed) →
      ∀ n, containsKey opts2 n = true →
        containsKey opts n = true ∨
          ∃ c ∈ chars, ∃ d, lookupFlag byFlag c = some d ∧ d.name = n := by
  intro chars
  induction chars with
  | nil =>
    intro opts opts2 consumed h n hn
    unfold processFlagChars at h
    injection h with h'
    have h1 : opts = opts2 := congrArg Prod.fst h'
    exact Or.inl (h1 ▸ hn)
  | cons c cs ih =>
    intro opts opts2 consumed h n hn
    unfold processFlagChars at h
    cases hl : lookupFlag byFlag c with
    | none => simp only [hl] at h; cases h
    | some d =>
      by_cases hck : containsKey opts d.name = true
      · simp only [hl, if_pos hck] at h; cases h
      · by_cases hdv : d.has_value = true
        · by_cases hemp : cs.isEmpty = true
          · cases hrs : resolveValue d nextTok with
            | error e =>
              simp only [hl, if_neg hck, if_pos hdv, if_pos hemp, hrs] at h
              cases h
            | ok fv =>
              obtain ⟨final_value, cons2⟩ := fv
              cases hrv : runValidator d final_value with
              | error e =>
                simp only [hl, if_neg hck, if_pos hdv, if_pos hemp, hrs,
                  hrv] at h
                cases h
              | ok u =>
                simp only [hl, if_neg hck, if_pos hdv, if_pos hemp, hrs,
                  hrv] at h
                injection h with h'
                have h1 : optInsert opts d.name final_value = opts2 :=
                  congrArg Prod.fst h'
                rw [← h1, containsKey_optInsert] at hn
                rcases (by simpa using hn :
                  containsKey opts n = true ∨ d.name = n) with hx | hx
                · exact Or.inl hx
                · exact Or.inr ⟨c, by simp, d, hl, hx⟩
          · simp only [hl, if_neg hck, if_pos hdv, if_neg hemp] at h
            cases h
        · simp only [hl, if_neg hck, if_neg hdv] at h
          rcases ih _ _ _ h n hn with hx | ⟨c2, hc2, d2, hd2, hd2n⟩
          · rw [containsKey_optInsert] at hx
            rcases (by simpa using hx :
              containsKey opts n = true ∨ d.name = n) with hy | hy
            · exact Or.inl hy
            · exact Or.inr ⟨c, by simp, d, hl, hy⟩
          · exact Or.inr ⟨c2, by simp [hc2], d2, hd2, hd2n⟩




theorem buildLookups_name_keys :
    ∀ (defs : List OptionDefinition)
      (bf0 : List (Char × OptionDefinition))
      (bn0 : List (String × OptionDefinition))
      (bf : List (Char × OptionDefinition))
      (bn : List (String × OptionDefinition)),
      (∀ p ∈ bn0, (p.2 : OptionDefinition).name = p.1) →
      buildLookups defs bf0 bn0 = .ok (bf, bn) →
      ∀ p ∈ bn, (p.2 : OptionDefinition).name = p.1 := by
  intro defs
  induction defs with
  | nil =>
    intro bf0 bn0 bf bn hwf h
    unfold buildLookups at h
    injection h with h'
    have h2 : bn0 = bn := congrArg Prod.snd h'
    exact h2 ▸ hwf
  | cons d ds ih =>
    intro bf0 bn0 bf bn hwf h
    unfold buildLookups at h
    by_cases hf : flagKey bf0 d.flag = true
    · simp only [if_pos hf] at h; cases h
    · by_cases hn : nameKey bn0 d.name = true
      · simp only [if_neg hf, if_pos hn] at h; cases h
      · simp only [if_neg hf, if_neg hn] at h
        refine ih _ _ _ _ ?_ h
        intro p hp
        rcases List.mem_append.mp hp with hp | hp
        · exact hwf p hp
        · simp only [List.mem_singleton] at hp
          subst hp
          rfl

theorem parseLoop_keys
    (byFlag : List (Char × OptionDefinition))
    (byName : List (String × OptionDefinition))
    (hwf : ∀ p ∈ byName, (p.2 : OptionDefinition).name = p.1) :
    ∀ (args : List String) (opts : List (String × Option String))
      (arguments : List String) (optsF : List (String × Option String))
      (argsF : List String),
      parseLoop byFlag byName opts arguments args = .ok (optsF, argsF) →
      ∀ n, containsKey optsF n = true →
        containsKey opts n = true ∨
          ∃ arg ∈ args, tokenMentions byFlag arg n := by
  suffices H : ∀ (k : Nat) (args : List String), args.length ≤ k →
      ∀ opts arguments optsF argsF,
        parseLoop byFlag byName opts arguments args = .ok (optsF, argsF) →
        ∀ n, containsKey optsF n = true →
          containsKey opts n = true ∨
            ∃ arg ∈ args, tokenMentions byFlag arg n by
    intro args
    exact H args.length args le_rfl
  intro k
  induction k with
  | zero =>
    intro args hlen opts arguments optsF argsF h n hn
    have hnil : args = [] := List.eq_nil_of_length_eq_zero
      (Nat.le_zero.mp hlen)
    subst hnil
    unfold parseLoop at h
    injection h with h'
    have h1 : opts = optsF := congrArg Prod.fst h'
    exact Or.inl (h1 ▸ hn)
  | succ k ihk =>
    intro args hlen opts arguments optsF argsF h n hn
    cases args with
    | nil =>
      unfold parseLoop at h
      injection h with h'
      have h1 : opts = optsF := congrArg Prod.fst h'
      exact Or.inl (h1 ▸ hn)
    | cons arg rest =>
      rw [parseLoop.eq_2] at h
      by_cases h1 : (arg == "--") = true
      · rw [if_pos h1] at h
        injection h with h'
        have h2 : opts = optsF := congrArg Prod.fst h'
        exact Or.inl (h2 ▸ hn)
      · rw [if_neg h1] at h
        have hnedd : arg ≠ "--" := by
          intro hc
          exact h1 (by rw [hc]; rfl)
        by_cases h2 : startsTwoDashes arg = true
        · rw [if_pos h2] at h
          cases hhl : handleLong byName opts arg rest.head? with
          | error e => rw [hhl] at h; cases h
          | ok pr =>
            obtain ⟨opts2, consumed⟩ := pr
            rw [hhl] at h
            have hkeys := handleLong_keys byName opts arg rest.head? opts2
              consumed hwf hhl
            have mentionsArg : longNameOf arg = n →
                ∃ a ∈ arg :: rest, tokenMentions byFlag a n := by
              intro hy
              exact ⟨arg, by simp, Or.inl ⟨h2, hnedd, hy⟩⟩
            cases consumed with
            | true =>
              simp only [if_true] at h
              cases rest with
              | nil =>
                injection h with h'
                have h3 : opts2 = optsF := congrArg Prod.fst h'
                rcases hkeys n (h3 ▸ hn) with hx | hx
                · exact Or.inl hx
                · exact Or.inr (mentionsArg hx)
              | cons t rest2 =>
                have hlen2 : rest2.length ≤ k := by
                  simp only [List.length_cons] at hlen
                  omega
                rcases ihk rest2 hlen2 opts2 arguments optsF argsF h n hn
                  with hx | ⟨a2, ha2, hm⟩
                · rcases hkeys n hx with hy | hy
                  · exact Or.inl hy
                  · exact Or.inr (mentionsArg hy)
                · exact Or.inr ⟨a2, by simp [ha2], hm⟩
            | false =>
              simp only [Bool.false_eq_true, if_false] at h
              have hlen2 : rest.length ≤ k := by
                simp only [List.length_cons] at hlen
                omega
              rcases ihk rest hlen2 opts2 arguments optsF argsF h n hn
                with hx | ⟨a2, ha2, hm⟩
              · rcases hkeys n hx with hy | hy
                · exact Or.inl hy
                · exact Or.inr (mentionsArg hy)
              · exact Or.inr ⟨a2, by simp [ha2], hm⟩
        · rw [if_neg h2] at h
          by_cases h3 : startsDash arg = true ∧ 1 < arg.data.length
          · rw [if_pos h3] at h
            cases hpf : processFlagChars byFlag (String.mk (arg.data.drop 1))
                rest.head? opts (arg.data.drop 1) with
            | error e => rw [hpf] at h; cases h
            | ok pr =>
              obtain ⟨opts2, consumed⟩ := pr
              rw [hpf] at h
              have hkeys := processFlagChars_keys byFlag
                (String.mk (arg.data.drop 1)) rest.head? (arg.data.drop 1)
                opts opts2 consumed hpf
              have mentionsArg : (∃ c ∈ arg.data.drop 1, ∃ d,
                  lookupFlag byFlag c = some d ∧ d.name = n) →
                  ∃ a ∈ arg :: rest, tokenMentions byFlag a n := by
                intro hy
                exact ⟨arg, by simp, Or.inr ⟨h3.1, hy⟩⟩
              cases consumed with
              | true =>
                simp only [if_true] at h
                cases rest with
                | nil =>
                  injection h with h'
                  have h4 : opts2 = optsF := congrArg Prod.fst h'
                  rcases hkeys n (h4 ▸ hn) with hx | hx
                  · exact Or.inl hx
                  · exact Or.inr (mentionsArg hx)
                | cons t rest2 =>
                  have hlen2 : rest2.length ≤ k := by
                    simp only [List.length_cons] at hlen
                    omega
                  rcases ihk rest2 hlen2 opts2 arguments optsF argsF h n hn
                    with hx | ⟨a2, ha2, hm⟩
                  · rcases hkeys n hx with hy | hy
                    · exact Or.inl hy
                    · exact Or.inr (mentionsArg hy)
                  · exact Or.inr ⟨a2, by simp [ha2], hm⟩
              | false =>
                simp only [Bool.false_eq_true, if_false] at h
                have hlen2 : rest.length ≤ k := by
                  simp only [List.length_cons] at hlen
                  omega
                rcases ihk rest hlen2 opts2 arguments optsF argsF h n hn
                  with hx | ⟨a2, ha2, hm⟩
                · rcases hkeys n hx with hy | hy
                  · exact Or.inl hy
                  · exact Or.inr (mentionsArg hy)
                · exact Or.inr ⟨a2, by simp [ha2], hm⟩
          · rw [if_neg h3] at h
            injection h with h'
            have h4 : opts = optsF := congrArg Prod.fst h'
            exact Or.inl (h4 ▸ hn)

/-! Claim theorems. -/

/-- Claim C7: the options mapping of a successful parse never holds a
back-filled default for an option the user did not mention: parsing only
the executable path yields an empty options mapping and an empty argument
list, and every key of the resulting options mapping is mentioned by some
scanned command-line token (a long-option token written for that name, or
a group containing a flag bound to that name). -/
theorem options_only_when_mentioned :
    (∀ (defs : List OptionDefinition) (bf : List (Char × OptionDefinition))
        (bn : List (String × OptionDefinition)) (exe : String),
      buildLookups defs [] [] = .ok (bf, bn) →
      parse_command_line defs [exe] = .ok ⟨exe, [], []⟩) ∧
    (∀ (defs : List OptionDefinition) (bf : List (Char × OptionDefinition))
        (bn : List (String × OptionDefinition)) (exe : String)
        (rest : List String) (pc : ParsedCommand) (n : String),
      buildLookups defs [] [] = .ok (bf, bn) →
      parse_command_line defs (exe :: rest) = .ok pc →
      containsKey pc.options n = true →
      ∃ arg ∈ rest, tokenMentions bf arg n) := by
  constructor
  · intro defs bf bn exe hb
    unfold parse_command_line
    simp only [hb]
    rfl
  · intro defs bf bn exe rest pc n hb hp hn
    unfold parse_command_line at hp
    simp only [hb] at hp
    cases hpl : parseLoop bf bn [] [] rest with
    | error e => rw [hpl] at hp; cases hp
    | ok pr =>
      obtain ⟨options, arguments⟩ := pr
      rw [hpl] at hp
      injection hp with hp'
      have hopts : pc.options = options := by rw [← hp']
      have hwf : ∀ p ∈ bn, (p.2 : OptionDefinition).name = p.1 :=
        buildLookups_name_keys defs [] [] bf bn (by intro p hp2; cases hp2) hb
      rcases parseLoop_keys bf bn hwf rest [] [] options arguments hpl n
        (hopts ▸ hn) with hx | hx
      · cases hx
      · exact hx

/-- Witness for claim C7: the one-token command, and the key `help`
produced by `exe --help` traced to the mentioning token. -/
theorem options_only_when_mentioned_witness :
    parse_command_line [helpDef] ["exe"] = .ok ⟨"exe", [], []⟩ ∧
    ∃ arg ∈ ["--help"], tokenMentions [('h', helpDef)] arg "help" := by
  constructor
  · exact options_only_when_mentioned.1 [helpDef] [('h', helpDef)]
      [("help", helpDef)] "exe" rfl
  · exact options_only_when_mentioned.2 [helpDef] [('h', helpDef)]
      [("help", helpDef)] "exe" ["--help"] ⟨"exe", [("help", none)], []⟩
      "help" rfl rfl rfl

/-- Claim C8: parsing an empty argument sequence (no executable path)
fails with `UnknownOption` carrying an explanatory payload, for every
catalog. -/
theorem empty_input_unknown_option (defs : List OptionDefinition) :
    parse_command_line defs [] =
      .error (.UnknownOption "No executable path provided") := rfl

/-- Claim C1: whenever an option that takes a value has no inline `=`
value — stated for a long-option token without `=` and for a single-flag
short token — value resolution proceeds exactly as: if a next token exists
and does not start with `-`, it is consumed as the value and the cursor
advances past it; otherwise a configured default is used without consuming
a token; otherwise parsing fails with `MissingValue` naming the option. -/
theorem value_resolution_rule :
    (∀ (byFlag : List (Char × OptionDefinition))
        (byName : List (String × OptionDefinition))
        (opts : List (String × Option String)) (arguments : List String)
        (arg : String) (rest : List String) (d : OptionDefinition),
      arg ≠ "--" →
      startsTwoDashes arg = true →
      lookupName byName (longNameOf arg) = some d →
      longValueOf arg = none →
      containsKey opts d.name = false →
      d.has_value = true →
      d.validator = none →
      parseLoop byFlag byName opts arguments (arg :: rest) =
        match rest with
        | t :: rest2 =>
          if startsDash t = false then
            parseLoop byFlag byName (optInsert opts d.name (some t))
              arguments rest2
          else
            match d.default_value with
            | some dv =>
              parseLoop byFlag byName (optInsert opts d.name (some dv))
                arguments rest
            | none => .error (.MissingValue d.name)
        | [] =>
          match d.default_value with
          | some dv =>
            parseLoop byFlag byName (optInsert opts d.name (some dv))
              arguments []
          | none => .error (.MissingValue d.name)) ∧
    (∀ (byFlag : List (Char × OptionDefinition))
        (byName : List (String × OptionDefinition))
        (opts : List (String × Option String)) (arguments : List String)
        (c : Char) (rest : List String) (d : OptionDefinition),
      c ≠ '-' →
      lookupFlag byFlag c = some d →
      containsKey opts d.name = false →
      d.has_value = true →
      d.validator = none →
      parseLoop byFlag byName opts arguments (String.mk ['-', c] :: rest) =
        match rest with
        | t :: rest2 =>
          if startsDash t = false then
            parseLoop byFlag byName (optInsert opts d.name (some t))
              arguments rest2
          else
            match d.default_value with
            | some dv =>
              parseLoop byFlag byName (optInsert opts d.name (some dv))
                arguments rest
            | none => .error (.MissingValue d.name)
        | [] =>
          match d.default_value with
          | some dv =>
            parseLoop byFlag byName (optInsert opts d.name (some dv))
              arguments []
          | none => .error (.MissingValue d.name)) := by
  constructor
  · intro byFlag byName opts arguments arg rest d hne hdd hlook hnov hdup
      hval hvld
    rw [parseLoop.eq_2, beq_eq_false_iff_ne.mpr hne, hdd]
    simp only [Bool.false_eq_true, if_false, if_true]
    unfold handleLong
    simp only [hlook, hdup, hnov, Bool.false_eq_true, if_false]
    unfold longFinalValue
    rw [hval]
    simp only [if_true]
    cases rest with
    | nil =>
      simp only [List.head?]
      unfold resolveValue
      cases hdv : d.default_value with
      | none => simp
      | some dv => simp [runValidator, hvld]
    | cons t rest2 =>
      simp only [List.head?]
      unfold resolveValue
      cases hsd : startsDash t with
      | false => simp [hsd, runValidator, hvld]
      | true =>
        cases hdv : d.default_value with
        | none => simp [hsd]
        | some dv => simp [hsd, runValidator, hvld]
  · intro byFlag byName opts arguments c rest d hc hflag hdup hval hvld
    have hne : (String.mk ['-', c] == "--") = false := by
      refine beq_eq_false_iff_ne.mpr ?_
      intro heq
      have hdata : ['-', c] = ['-', '-'] := congrArg String.data heq
      injection hdata with h1 h2
      injection h2 with h3 h4
      exact hc h3
    have htd : startsTwoDashes (String.mk ['-', c]) = false := by
      show (('-' == '-') && (c == '-')) = false
      simp [beq_eq_false_iff_ne.mpr hc]
    rw [parseLoop.eq_2, hne, htd]
    simp only [Bool.false_eq_true, if_false]
    rw [if_pos (⟨rfl, by simp⟩ :
      startsDash (String.mk ['-', c]) = true ∧
        1 < (String.mk ['-', c]).data.length)]
    show (match processFlagChars byFlag (String.mk [c]) rest.head? opts [c] with
      | Except.error e => Except.error e
      | Except.ok (opts2, consumed) =>
        if consumed = true then
          match rest with
          | [] => Except.ok (opts2, arguments)
          | _ :: rest2 => parseLoop byFlag byName opts2 arguments rest2
        else parseLoop byFlag byName opts2 arguments rest) = _
    unfold processFlagChars
    simp only [hflag, hdup, hval, Bool.false_eq_true, if_false, if_true,
      List.isEmpty_nil]
    cases rest with
    | nil =>
      simp only [List.head?]
      unfold resolveValue
      cases hdv : d.default_value with
      | none => simp
      | some dv => simp [runValidator, hvld]
    | cons t rest2 =>
      simp only [List.head?]
      unfold resolveValue
      cases hsd : startsDash t with
      | false => simp [hsd, runValidator, hvld]
      | true =>
        cases hdv : d.default_value with
        | none => simp [hsd]
        | some dv => simp [hsd, runValidator, hvld]

/-- Witness for claim C1: next-token consumption for `--file v.txt`,
default resolution for `-o` with a configured default, and `MissingValue`
for `-f` with no default. -/
theorem value_resolution_rule_witness :
    parseLoop [] [("file", fileDef)] [] [] ["--file", "v.txt"] =
      .ok ([("file", some "v.txt")], []) ∧
    parseLoop [('o', outputDef)] [] [] [] ["-o"] =
      .ok ([("output", some "default.txt")], []) ∧
    parseLoop [('f', fileDef)] [] [] [] ["-f"] =
      .error (.MissingValue "file") := by
  refine ⟨?_, ?_, ?_⟩
  · exact (value_resolution_rule.1 [] [("file", fileDef)] [] [] "--file"
      ["v.txt"] fileDef (by decide) rfl rfl rfl rfl rfl rfl).trans rfl
  · exact (value_resolution_rule.2 [('o', outputDef)] [] [] [] 'o' []
      outputDef (by decide) rfl rfl rfl rfl).trans rfl
  · exact (value_resolution_rule.2 [('f', fileDef)] [] [] [] 'f' []
      fileDef (by decide) rfl rfl rfl rfl).trans rfl

/-- Claim C2: when the scan reaches the token `--`, every remaining token
is appended verbatim and in order to the arguments, no further token is
interpreted as an option, and scanning stops; in particular the spec's
example invocation succeeds with `help` recorded bare and the
option-looking token collected as a positional argument. -/
theorem double_dash_terminator :
    (∀ (byFlag : List (Char × OptionDefinition))
        (byName : List (String × OptionDefinition))
        (opts : List (String × Option String)) (arguments rest : List String),
        parseLoop byFlag byName opts arguments ("--" :: rest) =
          .ok (opts, arguments ++ rest)) ∧
    parse_command_line [helpDef, versionDef]
        ["exe", "--help", "--", "--not-an-option", "file.txt"] =
      .ok ⟨"exe", [("help", none)], ["--not-an-option", "file.txt"]⟩ := by
  constructor
  · intro byFlag byName opts arguments rest
    rw [parseLoop.eq_2]
    simp
  · rfl

/-- Claim C3: a token that does not start with `-`, or is exactly `-`
alone, stops the scan: it and every remaining token are appended verbatim
to the arguments in input order, and no option is interpreted after it. -/
theorem positional_token_stops_scan
    (byFlag : List (Char × OptionDefinition))
    (byName : List (String × OptionDefinition))
    (opts : List (String × Option String)) (arguments : List String)
    (arg : String) (rest : List String)
    (h : startsDash arg = false ∨ arg = "-") :
    parseLoop byFlag byName opts arguments (arg :: rest) =
      .ok (opts, arguments ++ arg :: rest) := by
  rw [parseLoop.eq_2]
  rcases h with h | h
  · have hne : (arg == "--") = false := by
      refine beq_eq_false_iff_ne.mpr ?_
      rintro rfl
      exact absurd h (by decide)
    have htd : startsTwoDashes arg = false := by
      cases hcase : startsTwoDashes arg with
      | false => rfl
      | true => rw [startsTwoDashes_startsDash hcase] at h; cases h
    rw [hne, htd]
    simp [h]
  · subst h
    rw [show (("-" : String) == "--") = false from by decide,
      show startsTwoDashes "-" = false from by decide]
    simp [show ("-" : String).data.length = 1 from by decide]

/-- Claim C5, counterexample: a catalog with a duplicate flag parsed
against the empty argument sequence fails with `UnknownOption` (the
missing-executable-path error), not with `DuplicateOption`, so the claim
as stated does not hold for every argument sequence. -/
theorem duplicate_catalog_counterexample :
    hasDuplicateDef dupFlagCatalog ∧
    parse_command_line dupFlagCatalog [] =
      .error (.UnknownOption "No executable path provided") ∧
    isDupErr (parse_command_line dupFlagCatalog []) = false := by
  refine ⟨Or.inl (by decide), rfl, rfl⟩

/-- Claim C5 as amended: for every catalog containing two definitions with
the same flag character or the same name string, and every NON-EMPTY
argument sequence, parsing fails with `DuplicateOption`, and the result is
the same whatever the argument input — the duplicate is detected while
the lookup tables are compiled, before any argument token is scanned. -/
theorem duplicate_catalog_always_dup_error
    (defs : List OptionDefinition) (x y : String) (r r2 : List String)
    (h : hasDuplicateDef defs) :
    isDupErr (parse_command_line defs (x :: r)) = true ∧
    parse_command_line defs (x :: r) = parse_command_line defs (y :: r2) := by
  obtain ⟨s, hs⟩ : ∃ s, buildLookups defs [] [] =
      .error (.DuplicateOption s) := by
    apply buildLookups_dup defs [] [] (by simp) (by simp)
    rcases h with h | h
    · exact Or.inl (by simpa using h)
    · exact Or.inr (by simpa using h)
  constructor
  · unfold parse_command_line
    simp only [hs]
    rfl
  · unfold parse_command_line
    simp only [hs]

/-- Witness for claim C5 at concrete inputs: two unrelated non-empty
argument sequences give the same `DuplicateOption` failure. -/
theorem duplicate_catalog_always_dup_error_witness :
    isDupErr (parse_command_line dupFlagCatalog ["exe", "input.txt"]) = true ∧
    parse_command_line dupFlagCatalog ["exe", "input.txt"] =
      parse_command_line dupFlagCatalog ["prog", "--file=x"] :=
  duplicate_catalog_always_dup_error dupFlagCatalog "exe" "prog"
    ["input.txt"] ["--file=x"] (Or.inl (by decide))

/-- Witness for claim C3 at a concrete input. -/
theorem positional_token_stops_scan_witness :
    (startsDash "file1.txt" = false ∨ "file1.txt" = "-") ∧
    parseLoop [] [] [] [] ["file1.txt", "--help"] =
      .ok ([], ["file1.txt", "--help"]) := by
  refine ⟨Or.inl (by decide), ?_⟩
  exact positional_token_stops_scan [] [] [] [] "file1.txt" ["--help"]
    (Or.inl (by decide))

/-- Claim C4: in a combined short-flag group the characters are resolved
independently left to right — an unknown character fails the group with
`UnknownOption` — and a value-taking flag in any non-final position makes
parsing fail with `InvalidFlagCombination` (a syntax error, not
`MissingValue` or `ValidationError`). -/
theorem invalid_flag_combination :
    (∀ (byFlag : List (Char × OptionDefinition)) (flags : String)
        (nextTok : Option String) (opts : List (String × Option String))
        (c : Char) (cs : List Char),
      lookupFlag byFlag c = none →
      processFlagChars byFlag flags nextTok opts (c :: cs) =
        .error (.UnknownOption ("-" ++ c.toString))) ∧
    (∀ (byFlag : List (Char × OptionDefinition)) (flags : String)
        (nextTok : Option String) (pre : List Char) (c : Char)
        (post : List Char) (d : OptionDefinition)
        (opts : List (String × Option String)),
      post ≠ [] →
      (∀ a ∈ pre, ∃ da, lookupFlag byFlag a = some da ∧ da.has_value = false) →
      lookupFlag byFlag c = some d →
      d.has_value = true →
      (pre ++ [c]).Pairwise (fun a b => ∀ da db,
        lookupFlag byFlag a = some da → lookupFlag byFlag b = some db →
        da.name ≠ db.name) →
      (∀ a ∈ pre ++ [c], ∀ da, lookupFlag byFlag a = some da →
        containsKey opts da.name = false) →
      processFlagChars byFlag flags nextTok opts (pre ++ c :: post) =
        .error (.InvalidFlagCombination
          ("Flag \x27" ++ c.toString
            ++ "\x27 requires a value but is not the last in combination \x27"
            ++ flags ++ "\x27"))) := by
  constructor
  · intro byFlag flags nextTok opts c cs h
    unfold processFlagChars
    rw [h]
  · intro byFlag flags nextTok pre c post d opts hpost hpre hc hv hpair hfresh
    exact processFlagChars_nonfinal_value_flag byFlag flags nextTok c post d
      hpost hc hv pre opts hpre hpair hfresh

/-- Witness for claim C4: an unknown flag in a group, and the group `-hfm`
in which the value-taking `f` sits in the middle. -/
theorem invalid_flag_combination_witness :
    processFlagChars [] "z" none [] ['z'] =
      .error (.UnknownOption "-z") ∧
    processFlagChars [('h', helpDef), ('f', fileDef)] "hfm" none []
        ['h', 'f', 'm'] =
      .error (.InvalidFlagCombination
        "Flag \x27f\x27 requires a value but is not the last in combination \x27hfm\x27") := by
  constructor
  · exact (invalid_flag_combination.1 [] "z" none [] 'z' [] rfl).trans rfl
  · have h := invalid_flag_combination.2 [('h', helpDef), ('f', fileDef)]
      "hfm" none ['h'] 'f' ['m'] fileDef []
      (by decide)
      (by
        intro a ha
        simp at ha
        subst ha
        exact ⟨helpDef, rfl, rfl⟩)
      rfl rfl
      (by
        refine List.Pairwise.cons ?_ (List.pairwise_singleton _ _)
        intro b hb
        simp at hb
        subst hb
        intro da db h1 h2
        rw [show lookupFlag [('h', helpDef), ('f', fileDef)] 'h'
          = some helpDef from rfl] at h1
        rw [show lookupFlag [('h', helpDef), ('f', fileDef)] 'f'
          = some fileDef from rfl] at h2
        cases h1
        cases h2
        decide)
      (by intro a ha da hda; rfl)
    exact h.trans rfl

/-- Claim C6: against a catalog containing
`{flag := f, name := file, takesValue := true}`, the invocation
`exe -f test.txt` parses to a result structurally identical to
`exe --file=test.txt`, both succeeding with the value `test.txt` recorded
under `file` and no positional arguments. -/
theorem short_next_token_equals_long_eq_form :
    parse_command_line stdFileCatalog ["exe", "-f", "test.txt"] =
      parse_command_line stdFileCatalog ["exe", "--file=test.txt"] ∧
    parse_command_line stdFileCatalog ["exe", "-f", "test.txt"] =
      .ok ⟨"exe", [("file", some "test.txt")], []⟩ := ⟨rfl, rfl⟩

/-- Claim C9: the help renderer is a pure function producing exactly these
lines: one usage line, a blank line, the description line, a blank line,
an `Options:` header, then one line per option definition in catalog
order, each consisting of the `-<flag>, --<name>` trigger column padded
with spaces to the fixed width 20 followed by the definition's help
text. -/
theorem generate_help_line_structure
    (command_name description usage_pattern : String)
    (defs : List OptionDefinition) :
    generate_help command_name description usage_pattern defs =
      joinLines (["Usage: " ++ command_name ++ " " ++ usage_pattern, "",
        description, "", "Options:"] ++
        defs.map (fun d => "  " ++ padWidth 20
          ("-" ++ d.flag.toString ++ ", --" ++ d.name) ++ " " ++ d.help_text)) := by
  unfold generate_help
  rw [← joinLines_entries defs]
  simp only [List.cons_append, List.nil_append, joinLines]
  apply str_ext
  simp [str_data_append, data_newline, data_two_newlines, data_empty,
    data_options_header, List.append_assoc]

/-- Claim C10: `option_value` returns `none` both for an absent option
and for an option recorded bare (present without a value); consequently
`has_option_value` is false and `option_value_or_default` falls back to
the caller-supplied default in both cases, while `is_option_set` is the
one query distinguishing them. -/
theorem query_semantics_absent_vs_bare (pc : ParsedCommand) (n : String)
    (h : lookupKey pc.options n = none ∨ lookupKey pc.options n = some none) :
    pc.option_value n = none ∧
    pc.has_option_value n = false ∧
    (∀ d : String, pc.option_value_or_default n d = d) ∧
    (pc.is_option_set n = true ↔ lookupKey pc.options n = some none) := by
  unfold ParsedCommand.option_value ParsedCommand.has_option_value
    ParsedCommand.option_value_or_default ParsedCommand.is_option_set
  rcases h with h | h <;>
    simp [ParsedCommand.option_value, contains_lookup, h]

/-- Witness for claim C10 at concrete commands: `verbose` recorded bare
versus `verbose` absent. -/
theorem query_semantics_absent_vs_bare_witness :
    ParsedCommand.option_value ⟨"exe", [("verbose", none)], []⟩ "verbose"
        = none ∧
    ParsedCommand.has_option_value ⟨"exe", [("verbose", none)], []⟩ "verbose"
        = false ∧
    ParsedCommand.option_value_or_default ⟨"exe", [("verbose", none)], []⟩
        "verbose" "fallback" = "fallback" ∧
    ParsedCommand.is_option_set ⟨"exe", [("verbose", none)], []⟩ "verbose"
        = true ∧
    ParsedCommand.option_value ⟨"exe", [], []⟩ "verbose" = none ∧
    ParsedCommand.is_option_set ⟨"exe", [], []⟩ "verbose" = false := by
  have h1 := query_semantics_absent_vs_bare ⟨"exe", [("verbose", none)], []⟩
    "verbose" (Or.inr rfl)
  have h2 := query_semantics_absent_vs_bare ⟨"exe", [], []⟩
    "verbose" (Or.inl rfl)
  exact ⟨h1.1, h1.2.1, h1.2.2.1 "fallback", h1.2.2.2.mpr rfl, h2.1, by rfl⟩

end RustySharutils
